import Mathlib

/-!
# Verification of the The-Rated-R-Superstar end-to-end-encrypted chat core

This development gives a shallow embedding of the hybrid RSA/AES chat
program (CryptoHelper, NetworkHelper, Client/Server handshake, and the
`main` entry point of E2EE.cpp) and proves the specification's testable
properties about it.

The repository ships only the header declarations of CryptoHelper,
NetworkHelper, Client and Server; their member-function bodies are not in
the source tree.  Wherever a body is missing, the corresponding Lean
definition is modelled from the specification (and from the Doxygen
contracts in the headers) and is marked `Modelled from the spec:` in its
doc comment.  The `main` dispatch of E2EE.cpp is translated directly from
the source.

Bytes are modelled as natural numbers below 256, byte strings as
`List Nat`, and machine integers as `Nat` with explicit reductions
modulo powers of two where overflow matters.
-/

/-! ## Byte-string utilities -/

/-- Little-endian decoding of a byte string into a natural number. -/
def bytesToNat : List Nat → Nat
  | [] => 0
  | b :: bs => b + 256 * bytesToNat bs

/-- Little-endian encoding of a natural number into exactly `len` bytes
(the value is taken modulo `256 ^ len`). -/
def natToBytes : Nat → Nat → List Nat
  | 0, _ => []
  | len + 1, n => n % 256 :: natToBytes len (n / 256)

theorem natToBytes_length (len n : Nat) : (natToBytes len n).length = len := by
  induction len generalizing n with
  | zero => rfl
  | succ l ih => simp [natToBytes, ih]

theorem bytesToNat_natToBytes (len n : Nat) :
    bytesToNat (natToBytes len n) = n % 256 ^ len := by
  induction len generalizing n with
  | zero => simp [natToBytes, bytesToNat, Nat.mod_one]
  | succ l ih =>
      simp only [natToBytes, bytesToNat, ih]
      rw [pow_succ', Nat.mod_mul]

theorem natToBytes_bytesToNat (bs : List Nat) (hb : ∀ b ∈ bs, b < 256) :
    natToBytes bs.length (bytesToNat bs) = bs := by
  induction bs with
  | nil => rfl
  | cons b bs ih =>
      have hb0 : b < 256 := hb b (List.mem_cons_self _ _)
      have hrest : ∀ x ∈ bs, x < 256 := fun x hx => hb x (List.mem_cons_of_mem _ hx)
      simp only [List.length_cons, natToBytes, bytesToNat]
      have h1 : (b + 256 * bytesToNat bs) % 256 = b := by omega
      have h2 : (b + 256 * bytesToNat bs) / 256 = bytesToNat bs := by omega
      rw [h1, h2, ih hrest]

theorem bytesToNat_lt (bs : List Nat) (hb : ∀ b ∈ bs, b < 256) :
    bytesToNat bs < 256 ^ bs.length := by
  induction bs with
  | nil => simp [bytesToNat]
  | cons b bs ih =>
      have hb0 : b < 256 := hb b (List.mem_cons_self _ _)
      have hrest := ih (fun x hx => hb x (List.mem_cons_of_mem _ hx))
      simp only [bytesToNat, List.length_cons, Nat.pow_succ]
      calc b + 256 * bytesToNat bs < 256 + 256 * bytesToNat bs := by omega
        _ = 256 * (bytesToNat bs + 1) := by ring
        _ ≤ 256 * 256 ^ bs.length := by
            exact Nat.mul_le_mul_left _ (by omega)
        _ = 256 ^ bs.length * 256 := by ring

/-- Pointwise xor of two byte strings (truncates to the shorter one). -/
def xorB (a b : List Nat) : List Nat := List.zipWith Nat.xor a b

theorem xorB_length (a b : List Nat) : (xorB a b).length = min a.length b.length := by
  simp [xorB]

theorem xorB_cancel (b : List Nat) : ∀ (a : List Nat), b.length ≤ a.length →
    xorB a (xorB a b) = b := by
  induction b with
  | nil => intro a _; simp [xorB]
  | cons y ys ih =>
      intro a h
      cases a with
      | nil => exact absurd h (by simp)
      | cons x xs =>
          simp only [xorB, List.zipWith_cons_cons, List.cons.injEq]
          exact ⟨Nat.xor_cancel_left x y, ih xs (by simp at h ⊢; omega)⟩

/-- Flipping byte `j` of the xor mask flips byte `j` of the result. -/
theorem xorB_set_flip (c : List Nat) : ∀ (p : List Nat), c.length = p.length →
    ∀ (j v : Nat),
    xorB (c.set j (c.getD j 0 ^^^ v)) (xorB c p) = p.set j (p.getD j 0 ^^^ v) := by
  induction c with
  | nil =>
      intro p h j v
      have : p = [] := by cases p with
        | nil => rfl
        | cons _ _ => simp at h
      subst this; simp [xorB]
  | cons x xs ih =>
      intro p h j v
      cases p with
      | nil => simp at h
      | cons y ys =>
          have hlen : xs.length = ys.length := by simpa using h
          cases j with
          | zero =>
              simp only [List.getD_cons_zero, List.set_cons_zero, xorB,
                List.zipWith_cons_cons, List.cons.injEq]
              constructor
              · calc (x ^^^ v) ^^^ (x ^^^ y) = (v ^^^ x) ^^^ (x ^^^ y) := by
                      rw [Nat.xor_comm x v]
                  _ = v ^^^ (x ^^^ (x ^^^ y)) := Nat.xor_assoc v x (x ^^^ y)
                  _ = v ^^^ y := by rw [Nat.xor_cancel_left]
                  _ = y ^^^ v := Nat.xor_comm v y
              · exact xorB_cancel ys xs (le_of_eq hlen.symm)
          | succ j =>
              simp only [List.getD_cons_succ, List.set_cons_succ, xorB,
                List.zipWith_cons_cons, List.cons.injEq]
              exact ⟨Nat.xor_cancel_left x y, ih ys hlen j v⟩

/-! ## Block splitting (16-byte AES blocks) -/

/-- Split a byte string into consecutive 16-byte blocks, with explicit
fuel to keep the recursion structural. -/
def toBlocksF : Nat → List Nat → List (List Nat)
  | 0, _ => []
  | _ + 1, [] => []
  | f + 1, x :: xs => ((x :: xs).take 16) :: toBlocksF f ((x :: xs).drop 16)

/-- Split a byte string into consecutive 16-byte blocks (the final block
may be shorter if the length is not a multiple of 16). -/
def toBlocks (l : List Nat) : List (List Nat) := toBlocksF l.length l

theorem toBlocksF_flatten : ∀ (f : Nat) (l : List Nat), l.length ≤ f →
    (toBlocksF f l).flatten = l
  | 0, l, h => by
      have : l = [] := List.eq_nil_of_length_eq_zero (Nat.le_zero.mp h)
      simp [this, toBlocksF]
  | _ + 1, [], _ => by simp [toBlocksF]
  | f + 1, x :: xs, h => by
      simp only [toBlocksF, List.flatten_cons]
      rw [toBlocksF_flatten f ((x :: xs).drop 16) (by simp at h ⊢; omega)]
      exact List.take_append_drop 16 (x :: xs)

theorem flatten_toBlocks (l : List Nat) : (toBlocks l).flatten = l :=
  toBlocksF_flatten l.length l le_rfl

theorem toBlocksF_blocks_length (f : Nat) : ∀ (l : List Nat), l.length ≤ f →
    l.length % 16 = 0 → ∀ b ∈ toBlocksF f l, b.length = 16 := by
  induction f with
  | zero => intro l _ _ b hb; simp [toBlocksF] at hb
  | succ f ih =>
      intro l h hm b hb
      cases l with
      | nil => simp [toBlocksF] at hb
      | cons x xs =>
          simp only [toBlocksF, List.mem_cons] at hb
          have hxlen : (x :: xs).length = xs.length + 1 := by simp
          rw [hxlen] at h hm
          have h16 : 16 ≤ xs.length + 1 := by omega
          rcases hb with hb | hb
          · subst hb
            simp only [List.length_take, List.length_cons]
            omega
          · refine ih ((x :: xs).drop 16) ?_ ?_ b hb
            · simp only [List.length_drop, List.length_cons]; omega
            · simp only [List.length_drop, List.length_cons]; omega

theorem toBlocks_blocks_length (l : List Nat) (hm : l.length % 16 = 0) :
    ∀ b ∈ toBlocks l, b.length = 16 :=
  toBlocksF_blocks_length l.length l le_rfl hm

theorem toBlocksF_of_blocks : ∀ (f : Nat) (bs : List (List Nat)),
    (∀ b ∈ bs, b.length = 16) → bs.flatten.length ≤ f → toBlocksF f bs.flatten = bs
  | f, [], _, _ => by cases f <;> simp [toBlocksF]
  | f, b :: rest, hb, hf => by
      have hb16 : b.length = 16 := hb b (List.mem_cons_self _ _)
      have hrest : ∀ x ∈ rest, x.length = 16 := fun x hx => hb x (List.mem_cons_of_mem _ hx)
      have hjoin : (b :: rest).flatten = b ++ rest.flatten := List.flatten_cons ..
      have hlen : (b ++ rest.flatten).length = 16 + rest.flatten.length := by simp [hb16]
      cases f with
      | zero =>
          exfalso
          rw [hjoin] at hf
          simp [hb16] at hf
      | succ f =>
          rw [hjoin]
          have hne : b ++ rest.flatten ≠ [] := by
            intro hcon
            have := congrArg List.length hcon
            simp [hb16] at this
          obtain ⟨y, ys, hys⟩ : ∃ y ys, b ++ rest.flatten = y :: ys := by
            cases hcase : b ++ rest.flatten with
            | nil => exact absurd hcase hne
            | cons y ys => exact ⟨y, ys, rfl⟩
          rw [hys]
          simp only [toBlocksF]
          rw [← hys]
          have htake : (b ++ rest.flatten).take 16 = b := by
            rw [← hb16]; exact List.take_left b rest.flatten
          have hdrop : (b ++ rest.flatten).drop 16 = rest.flatten := by
            rw [← hb16]; exact List.drop_left b rest.flatten
          rw [htake, hdrop]
          have hflen : rest.flatten.length ≤ f := by
            rw [hjoin, hlen] at hf
            omega
          rw [toBlocksF_of_blocks f rest hrest hflen]

theorem toBlocks_of_blocks (bs : List (List Nat)) (hb : ∀ b ∈ bs, b.length = 16) :
    toBlocks bs.flatten = bs :=
  toBlocksF_of_blocks bs.flatten.length bs hb le_rfl

theorem flatten_blocks_length (bs : List (List Nat)) (hb : ∀ b ∈ bs, b.length = 16) :
    bs.flatten.length = 16 * bs.length := by
  induction bs with
  | nil => simp
  | cons b rest ih =>
      have hb16 : b.length = 16 := hb b (List.mem_cons_self _ _)
      have := ih (fun x hx => hb x (List.mem_cons_of_mem _ hx))
      simp [hb16, this]
      ring

/-! ## CBC mode and PKCS#7 padding -/

/-- CBC-mode encryption of a list of plaintext blocks: each block is
xored with the previous ciphertext block (initially the iv) and then
passed through the block cipher `encB`. -/
def cbcEnc (encB : List Nat → List Nat) : List Nat → List (List Nat) → List (List Nat)
  | _, [] => []
  | prev, b :: bs => encB (xorB prev b) :: cbcEnc encB (encB (xorB prev b)) bs

/-- CBC-mode decryption: each ciphertext block is passed through the
inverse block cipher `decB` and xored with the previous ciphertext block
(initially the iv). -/
def cbcDec (decB : List Nat → List Nat) : List Nat → List (List Nat) → List (List Nat)
  | _, [] => []
  | prev, c :: cs => xorB prev (decB c) :: cbcDec decB c cs

theorem cbcEnc_length (encB : List Nat → List Nat) :
    ∀ (bs : List (List Nat)) (prev : List Nat), (cbcEnc encB prev bs).length = bs.length := by
  intro bs
  induction bs with
  | nil => intro prev; rfl
  | cons b rest ih => intro prev; simp [cbcEnc, ih]

theorem cbcEnc_blocks_16 (encB : List Nat → List Nat)
    (hlen : ∀ x, x.length = 16 → (encB x).length = 16) :
    ∀ (bs : List (List Nat)) (prev : List Nat), prev.length = 16 →
      (∀ b ∈ bs, b.length = 16) → ∀ c ∈ cbcEnc encB prev bs, c.length = 16 := by
  intro bs
  induction bs with
  | nil => intro prev _ _ c hc; simp [cbcEnc] at hc
  | cons b rest ih =>
      intro prev hprev hb c hc
      have hb16 : b.length = 16 := hb b (List.mem_cons_self _ _)
      have hx : (xorB prev b).length = 16 := by
        rw [xorB_length, hprev, hb16]; simp
      simp only [cbcEnc, List.mem_cons] at hc
      rcases hc with hc | hc
      · subst hc; exact hlen _ hx
      · exact ih (encB (xorB prev b)) (hlen _ hx)
          (fun x hx' => hb x (List.mem_cons_of_mem _ hx')) c hc

theorem cbcDec_cbcEnc (encB decB : List Nat → List Nat)
    (hlen : ∀ x, x.length = 16 → (encB x).length = 16)
    (hinv : ∀ x, x.length = 16 → decB (encB x) = x) :
    ∀ (bs : List (List Nat)) (prev : List Nat), prev.length = 16 →
      (∀ b ∈ bs, b.length = 16) →
      cbcDec decB prev (cbcEnc encB prev bs) = bs := by
  intro bs
  induction bs with
  | nil => intro prev _ _; rfl
  | cons b rest ih =>
      intro prev hprev hb
      have hb16 : b.length = 16 := hb b (List.mem_cons_self _ _)
      have hx : (xorB prev b).length = 16 := by
        rw [xorB_length, hprev, hb16]; simp
      simp only [cbcEnc, cbcDec, List.cons.injEq]
      rw [hinv _ hx]
      exact ⟨xorB_cancel b prev (by omega), ih (encB (xorB prev b)) (hlen _ hx)
        (fun x hx' => hb x (List.mem_cons_of_mem _ hx'))⟩

/-- CBC-decrypting an appended ciphertext-block list splits, the chain
value for the suffix being the last block of the first part. -/
theorem cbcDec_append (decB : List Nat → List Nat) :
    ∀ (xs ys : List (List Nat)) (prev : List Nat),
      cbcDec decB prev (xs ++ ys) = cbcDec decB prev xs ++ cbcDec decB (xs.getLastD prev) ys := by
  intro xs
  induction xs with
  | nil => intro ys prev; simp [cbcDec, List.getLastD]
  | cons c cs ih =>
      intro ys prev
      simp only [List.cons_append, List.append_eq, cbcDec, List.getLastD_cons]
      rw [ih ys c]

/-- CBC-encrypting an appended block list splits, the chain value for the
suffix being the last ciphertext block of the first part. -/
theorem cbcEnc_append (encB : List Nat → List Nat) :
    ∀ (xs ys : List (List Nat)) (prev : List Nat),
      cbcEnc encB prev (xs ++ ys) =
        cbcEnc encB prev xs ++ cbcEnc encB ((cbcEnc encB prev xs).getLastD prev) ys := by
  intro xs
  induction xs with
  | nil => intro ys prev; simp [cbcEnc, List.getLastD]
  | cons b bs ih =>
      intro ys prev
      simp only [List.cons_append, List.append_eq, cbcEnc, List.getLastD_cons]
      rw [ih ys (encB (xorB prev b))]

/-- PKCS#7 padding: append `p` bytes of value `p`, where
`p = 16 - len % 16` (a full extra block when the length is already a
multiple of 16). -/
def pkcs7Pad (l : List Nat) : List Nat :=
  l ++ List.replicate (16 - l.length % 16) (16 - l.length % 16)

/-- PKCS#7 unpadding with full validation: the last byte `p` must be in
`[1,16]`, the list must have at least `p` bytes, and the last `p` bytes
must all equal `p`; otherwise the padding check fails (`none`). -/
def pkcs7Unpad (l : List Nat) : Option (List Nat) :=
  if l.getLastD 0 = 0 then none
  else if 16 < l.getLastD 0 then none
  else if l.length < l.getLastD 0 then none
  else if (l.drop (l.length - l.getLastD 0)).all (· == l.getLastD 0) then
    some (l.take (l.length - l.getLastD 0))
  else none

theorem pkcs7Pad_length (l : List Nat) :
    (pkcs7Pad l).length = l.length + (16 - l.length % 16) := by
  simp [pkcs7Pad]

theorem pkcs7Pad_length_mod (l : List Nat) : (pkcs7Pad l).length % 16 = 0 := by
  rw [pkcs7Pad_length]; omega

theorem pkcs7Pad_ne_nil (l : List Nat) : pkcs7Pad l ≠ [] := by
  intro h
  have := congrArg List.length h
  rw [pkcs7Pad_length] at this
  simp at this
  omega

theorem pkcs7Unpad_pkcs7Pad (l : List Nat) : pkcs7Unpad (pkcs7Pad l) = some l := by
  set p := 16 - l.length % 16 with hp
  have hp1 : 1 ≤ p := by omega
  have hp16 : p ≤ 16 := by omega
  have hgl : (pkcs7Pad l).getLast? = some p := by
    rw [pkcs7Pad, List.getLast?_append]
    rw [List.getLast?_replicate]
    simp
    omega
  have hgld : (pkcs7Pad l).getLastD 0 = p := by
    rw [List.getLastD_eq_getLast?, hgl]
    rfl
  have hlen : (pkcs7Pad l).length = l.length + p := pkcs7Pad_length l
  have hd : (pkcs7Pad l).drop ((pkcs7Pad l).length - p) = List.replicate p p := by
    rw [hlen, pkcs7Pad]
    have : l.length + p - p = l.length := by omega
    rw [this]
    exact List.drop_left l _
  have ht : (pkcs7Pad l).take ((pkcs7Pad l).length - p) = l := by
    rw [hlen, pkcs7Pad]
    have : l.length + p - p = l.length := by omega
    rw [this]
    exact List.take_left l _
  rw [pkcs7Unpad, hgld, if_neg (by omega), if_neg (by omega), if_neg (by omega), hd, ht]
  rw [if_pos]
  simp [List.all_eq_true, List.mem_replicate]

/-! ## Symmetric cipher (CryptoHelper AES-256-CBC contract) -/

/-- Modelled from the spec: `CryptoHelper::AESEncrypt` (body not in the
source tree).  AES-256-CBC encryption with PKCS#7 padding; the AES block
permutation itself is a parameter `encBlock` (keyed by the 32-byte
session key), and the 16-byte iv is supplied by the caller (see
`AESEncryptCall` for iv generation). -/
def AESEncrypt (encBlock : List Nat → List Nat → List Nat) (key iv msg : List Nat) : List Nat :=
  (cbcEnc (encBlock key) iv (toBlocks (pkcs7Pad msg))).flatten

/-- Modelled from the spec: `CryptoHelper::AESDecrypt` (body not in the
source tree).  AES-256-CBC decryption; fails (`none`, the
`DecryptionError` result) on an empty or non-block-aligned ciphertext or
when the PKCS#7 padding check fails. -/
def AESDecrypt (decBlock : List Nat → List Nat → List Nat) (key iv ct : List Nat) :
    Option (List Nat) :=
  if ct.length = 0 then none
  else if ct.length % 16 ≠ 0 then none
  else pkcs7Unpad ((cbcDec (decBlock key) iv (toBlocks ct)).flatten)

/-- Modelled from the spec: the `RAND_bytes` iv source used by
`CryptoHelper::AESEncrypt`.  The cryptographic RNG is modelled as a
counter stream: call number `ctr` yields the 16-byte little-endian
encoding of `ctr`, so successive calls yield pairwise distinct ivs. -/
def randIV (ctr : Nat) : List Nat := natToBytes 16 ctr

/-- Modelled from the spec: one full call of `CryptoHelper::AESEncrypt`:
draw a fresh 16-byte iv from the RNG (call counter `ctr`), CBC-encrypt,
and return the iv alongside the ciphertext together with the advanced
RNG state. -/
def AESEncryptCall (encBlock : List Nat → List Nat → List Nat) (key msg : List Nat)
    (ctr : Nat) : (List Nat × List Nat) × Nat :=
  ((randIV ctr, AESEncrypt encBlock key (randIV ctr) msg), ctr + 1)

theorem randIV_length (ctr : Nat) : (randIV ctr).length = 16 :=
  natToBytes_length 16 ctr

theorem randIV_inj (c1 c2 : Nat) (h1 : c1 < 2 ^ 128) (h2 : c2 < 2 ^ 128)
    (hne : c1 ≠ c2) : randIV c1 ≠ randIV c2 := by
  intro h
  have hb := congrArg bytesToNat h
  rw [randIV, randIV, bytesToNat_natToBytes, bytesToNat_natToBytes] at hb
  have h256 : (256 : Nat) ^ 16 = 2 ^ 128 := by norm_num
  rw [h256, Nat.mod_eq_of_lt h1, Nat.mod_eq_of_lt h2] at hb
  exact hne hb

theorem AESEncrypt_blocks_16 (encBlock : List Nat → List Nat → List Nat)
    (key iv msg : List Nat)
    (hlen : ∀ x, x.length = 16 → (encBlock key x).length = 16)
    (hiv : iv.length = 16) :
    ∀ c ∈ cbcEnc (encBlock key) iv (toBlocks (pkcs7Pad msg)), c.length = 16 :=
  cbcEnc_blocks_16 (encBlock key) hlen (toBlocks (pkcs7Pad msg)) iv hiv
    (toBlocks_blocks_length (pkcs7Pad msg) (pkcs7Pad_length_mod msg))

theorem AESEncrypt_length (encBlock : List Nat → List Nat → List Nat)
    (key iv msg : List Nat)
    (hlen : ∀ x, x.length = 16 → (encBlock key x).length = 16)
    (hiv : iv.length = 16) :
    (AESEncrypt encBlock key iv msg).length =
      16 * (toBlocks (pkcs7Pad msg)).length := by
  rw [AESEncrypt, flatten_blocks_length _ (AESEncrypt_blocks_16 encBlock key iv msg hlen hiv),
    cbcEnc_length]

theorem toBlocks_pkcs7Pad_ne_nil (msg : List Nat) : toBlocks (pkcs7Pad msg) ≠ [] := by
  intro h
  have := flatten_toBlocks (pkcs7Pad msg)
  rw [h] at this
  exact pkcs7Pad_ne_nil msg this.symm

/-- Encrypt-then-decrypt with the same key and iv is the identity,
provided the keyed block maps are mutually inverse 16-byte permutations. -/
theorem AESDecrypt_AESEncrypt (encBlock decBlock : List Nat → List Nat → List Nat)
    (key iv msg : List Nat)
    (hlen : ∀ x, x.length = 16 → (encBlock key x).length = 16)
    (hinv : ∀ x, x.length = 16 → decBlock key (encBlock key x) = x)
    (hiv : iv.length = 16) :
    AESDecrypt decBlock key iv (AESEncrypt encBlock key iv msg) = some msg := by
  have hct16 := AESEncrypt_blocks_16 encBlock key iv msg hlen hiv
  have hctlen := AESEncrypt_length encBlock key iv msg hlen hiv
  have hbpos : 1 ≤ (toBlocks (pkcs7Pad msg)).length := by
    cases hcase : toBlocks (pkcs7Pad msg) with
    | nil => exact absurd hcase (toBlocks_pkcs7Pad_ne_nil msg)
    | cons _ _ => simp
  rw [AESDecrypt]
  rw [if_neg (by rw [hctlen]; omega), if_neg (by rw [hctlen]; omega)]
  rw [AESEncrypt, toBlocks_of_blocks _ hct16]
  rw [cbcDec_cbcEnc (encBlock key) (decBlock key) hlen hinv _ iv hiv
    (toBlocks_blocks_length (pkcs7Pad msg) (pkcs7Pad_length_mod msg))]
  rw [flatten_toBlocks]
  exact pkcs7Unpad_pkcs7Pad msg

/-- A simple invertible keyed block permutation (xor with the first 16
key bytes), used to instantiate the abstract block-cipher parameter in
concrete evaluations. -/
def xorCipher (key b : List Nat) : List Nat := xorB (key.take 16) b

theorem xorCipher_length (key : List Nat) (hk : 16 ≤ key.length) :
    ∀ x, x.length = 16 → (xorCipher key x).length = 16 := by
  intro x hx
  rw [xorCipher, xorB_length, List.length_take, hx]
  omega

theorem xorCipher_involutive (key : List Nat) (hk : 16 ≤ key.length) :
    ∀ x, x.length = 16 → xorCipher key (xorCipher key x) = x := by
  intro x hx
  rw [xorCipher, xorCipher]
  exact xorB_cancel x (key.take 16) (by simp [List.length_take]; omega)

/-! ## RSA (CryptoHelper asymmetric contract) -/

/-- Fermat step: for a prime `p`, exponents of the form `(p-1)k + 1`
act as the identity on `m` modulo `p`. -/
theorem pow_fermat_cycle (p : Nat) (hp : p.Prime) (k m : Nat) :
    m ^ ((p - 1) * k + 1) ≡ m [MOD p] := by
  haveI : Fact p.Prime := ⟨hp⟩
  have h2 : ((m : ZMod p)) ^ ((p - 1) * k + 1) = (m : ZMod p) := by
    by_cases hm : (m : ZMod p) = 0
    · rw [hm, zero_pow (by omega)]
    · rw [pow_add, pow_mul, pow_one, ZMod.pow_card_sub_one_eq_one hm, one_pow, one_mul]
  have hcast : ((m ^ ((p - 1) * k + 1) : Nat) : ZMod p) = ((m : Nat) : ZMod p) := by
    push_cast
    exact h2
  exact (ZMod.natCast_eq_natCast_iff _ _ _).mp hcast

/-- Textbook RSA correctness: with a valid keypair over distinct primes,
decryption inverts encryption on every message below the modulus. -/
theorem rsa_correct (p q e d m : Nat) (hp : p.Prime) (hq : q.Prime) (hpq : p ≠ q)
    (hed : e * d ≡ 1 [MOD (p - 1) * (q - 1)]) (hm : m < p * q) :
    (m ^ e % (p * q)) ^ d % (p * q) = m := by
  have hp2 : 2 ≤ p := hp.two_le
  have hq2 : 2 ≤ q := hq.two_le
  have htot : 2 ≤ (p - 1) * (q - 1) := by
    rcases (by omega : (2 ≤ p - 1 ∧ 1 ≤ q - 1) ∨ (1 ≤ p - 1 ∧ 2 ≤ q - 1)) with
      ⟨h1, h2⟩ | ⟨h1, h2⟩
    · calc 2 = 2 * 1 := by ring
        _ ≤ (p - 1) * (q - 1) := Nat.mul_le_mul h1 h2
    · calc 2 = 1 * 2 := by ring
        _ ≤ (p - 1) * (q - 1) := Nat.mul_le_mul h1 h2
  have hed1 : 1 ≤ e * d := by
    by_contra h
    have hz : e * d = 0 := by omega
    have h0 : e * d % ((p - 1) * (q - 1)) = 1 % ((p - 1) * (q - 1)) := hed
    rw [hz, Nat.zero_mod, Nat.mod_eq_of_lt (by omega)] at h0
    exact absurd h0 (by omega)
  have hdvd : (p - 1) * (q - 1) ∣ e * d - 1 := (Nat.modEq_iff_dvd' hed1).mp hed.symm
  obtain ⟨t, ht⟩ := hdvd
  have hbase : e * d = (p - 1) * (q - 1) * t + 1 := by omega
  have hedp : e * d = (p - 1) * ((q - 1) * t) + 1 := by rw [hbase, Nat.mul_assoc]
  have hedq : e * d = (q - 1) * ((p - 1) * t) + 1 := by rw [hbase]; ring
  have hmp : m ^ (e * d) ≡ m [MOD p] := by
    rw [hedp]; exact pow_fermat_cycle p hp ((q - 1) * t) m
  have hmq : m ^ (e * d) ≡ m [MOD q] := by
    rw [hedq]; exact pow_fermat_cycle q hq ((p - 1) * t) m
  have hco : Nat.Coprime p q := (Nat.coprime_primes hp hq).mpr hpq
  have hmpq : m ^ (e * d) ≡ m [MOD p * q] :=
    (Nat.modEq_and_modEq_iff_modEq_mul hco).mp ⟨hmp, hmq⟩
  calc (m ^ e % (p * q)) ^ d % (p * q) = (m ^ e) ^ d % (p * q) := by
        rw [← Nat.pow_mod]
    _ = m ^ (e * d) % (p * q) := by rw [← pow_mul]
    _ = m % (p * q) := hmpq
    _ = m := Nat.mod_eq_of_lt hm

/-- An RSA public key: modulus and public exponent. -/
structure RSAPub where
  n : Nat
  e : Nat
  deriving DecidableEq, Repr

/-- An RSA keypair: modulus, public exponent, private exponent. -/
structure RSAKeyPair where
  n : Nat
  e : Nat
  d : Nat
  deriving DecidableEq, Repr

/-- Modelled from the spec: the state of a `CryptoHelper` object
(CryptoHelper.h): the own RSA keypair (`rsaKeyPair`, null until
`GenerateRSAKeys`), the peer's public key (`peerPublicKey`, null until
`LoadPeerPublicKey`), and the 32-byte AES-256 session key `aesKey`. -/
structure CryptoHelper where
  rsaKeyPair : Option RSAKeyPair
  peerPublicKey : Option RSAPub
  aesKey : List Nat
  deriving DecidableEq, Repr

/-- Modelled from the spec: `CryptoHelper::EncryptAESKeyWithPeer` (body
not in the source tree) — wrap the 32-byte session key under the peer's
public RSA key.  The RSA core is textbook modular exponentiation; `none`
models the unmet precondition that a peer key must be loaded first. -/
def EncryptAESKeyWithPeer (st : CryptoHelper) : Option Nat :=
  match st.peerPublicKey with
  | none => none
  | some pk => some (bytesToNat st.aesKey ^ pk.e % pk.n)

/-- Modelled from the spec: `CryptoHelper::DecryptAESKey` (body not in
the source tree) — unwrap a received wrapped key with the own private
RSA key and store the 32 result bytes as the session key. -/
def DecryptAESKey (st : CryptoHelper) (c : Nat) : Option CryptoHelper :=
  match st.rsaKeyPair with
  | none => none
  | some kp => some { st with aesKey := natToBytes 32 (c ^ kp.d % kp.n) }

/-- Errors of the cryptographic layer (spec section 7). -/
inductive CryptoError where
  | KeyFormatError
  | KeyGenerationError
  | KeyUnwrapError
  | DecryptionError
  deriving DecidableEq, Repr

/-- Split a character list on spaces (the textual-key tokenizer). -/
def splitOnSpace : List Char → List (List Char)
  | [] => [[]]
  | c :: rest =>
    let r := splitOnSpace rest
    if c = ' ' then [] :: r
    else (c :: r.headD []) :: r.tail

/-- Parse a non-empty all-digit character list as a decimal number. -/
def parseNatDigits (cs : List Char) : Option Nat :=
  if cs = [] then none
  else if cs.all Char.isDigit then
    some (cs.foldl (fun a c => a * 10 + (c.toNat - 48)) 0)
  else none

/-- Modelled from the spec: `CryptoHelper::GetPublicKeyString` (body not
in the source tree) — export the own public key in a portable textual
(PEM-style) encoding. -/
def GetPublicKeyString (pk : RSAPub) : String :=
  "PUBKEY " ++ toString pk.n ++ " " ++ toString pk.e

/-- Modelled from the spec: `CryptoHelper::LoadPeerPublicKey` (body not
in the source tree) — parse a textual public-key encoding received from
the untrusted peer; on any malformed input it returns the catchable
`KeyFormatError` result instead of crashing. -/
def LoadPeerPublicKey (pem : String) : Except CryptoError RSAPub :=
  match splitOnSpace pem.data with
  | [tag, ns, es] =>
    if tag = "PUBKEY".data then
      match parseNatDigits ns, parseNatDigits es with
      | some n, some e => .ok ⟨n, e⟩
      | _, _ => .error .KeyFormatError
    else .error .KeyFormatError
  | _ => .error .KeyFormatError

/-- The grammar of well-formed textual public keys: exactly three
space-separated tokens, the tag `PUBKEY` and two decimal numbers. -/
def isWellFormedKeyText (s : String) : Bool :=
  match splitOnSpace s.data with
  | [tag, ns, es] =>
    tag == "PUBKEY".data && (parseNatDigits ns).isSome && (parseNatDigits es).isSome
  | _ => false

/-- Modelled from the spec: the `CryptoHelper` destructor — at session
end the RSA keys are released and the 32-byte AES session-key buffer is
zeroed. -/
def teardownCryptoHelper (_st : CryptoHelper) : CryptoHelper :=
  { rsaKeyPair := none, peerPublicKey := none, aesKey := List.replicate 32 0 }

/-! ## Framed transport (NetworkHelper contract) -/

/-- Modelled from the spec: `NetworkHelper::SendAll` (body not in the
source tree) — loop until every byte of `data` has been written.  Partial
writes only affect chunk boundaries, so the bytes appended to the stream
are exactly `data`. -/
def SendAll (stream data : List Nat) : List Nat := stream ++ data

/-- Modelled from the spec: `NetworkHelper::ReceiveExact` (body not in
the source tree) — loop over the underlying `recv` until exactly `n`
bytes have been read.  `sched` lists the chunk size each underlying read
offers (the transport may deliver arbitrarily few bytes per read); a
read that delivers 0 bytes means the stream closed, and an exhausted
schedule models an indefinite block: both yield `none` (the failed
ReceiveExact).  On success, returns the `n` bytes read and the remaining
stream. -/
def ReceiveExact (sched stream : List Nat) (n : Nat) : Option (List Nat × List Nat) :=
  match n, sched with
  | 0, _ => some ([], stream)
  | _ + 1, [] => none
  | m + 1, c :: sched' =>
    if min (min c (m + 1)) stream.length = 0 then none
    else
      match ReceiveExact sched' (stream.drop (min (min c (m + 1)) stream.length))
          (m + 1 - min (min c (m + 1)) stream.length) with
      | some (bs, rest) => some (stream.take (min (min c (m + 1)) stream.length) ++ bs, rest)
      | none => none

/-- A receive-exact over a stream holding at least `n` bytes succeeds
with exactly the first `n` bytes, for every positive chunk schedule that
is long enough — chunking never changes the received data. -/
theorem ReceiveExact_exact : ∀ (sched : List Nat) (n : Nat) (stream : List Nat),
    (∀ c ∈ sched, 0 < c) → n ≤ sched.length → n ≤ stream.length →
    ReceiveExact sched stream n = some (stream.take n, stream.drop n) := by
  intro sched
  induction sched with
  | nil =>
      intro n stream _ hn _
      have : n = 0 := by simpa using hn
      subst this
      simp [ReceiveExact]
  | cons c sch ih =>
      intro n stream hpos hn hs
      cases n with
      | zero => simp [ReceiveExact]
      | succ m =>
          have hc : 0 < c := hpos c (List.mem_cons_self _ _)
          simp only [ReceiveExact]
          set k := min (min c (m + 1)) stream.length with hkdef
          have hkle : k ≤ stream.length := by omega
          have hklem : k ≤ m + 1 := by omega
          have hk : 0 < k := by omega
          rw [if_neg (by omega)]
          rw [ih (m + 1 - k) (stream.drop k)
            (fun x hx => hpos x (List.mem_cons_of_mem _ hx))
            (by simp at hn; omega)
            (by simp only [List.length_drop]; omega)]
          have h1 : stream.take k ++ (stream.drop k).take (m + 1 - k) = stream.take (m + 1) := by
            have hksum : k + (m + 1 - k) = m + 1 := by omega
            conv_rhs => rw [← hksum]
            rw [List.take_add]
          have h2 : (stream.drop k).drop (m + 1 - k) = stream.drop (m + 1) := by
            rw [List.drop_drop]
            congr 1
            omega
          simp [h1, h2]

/-- A receive-exact on a stream that closes before delivering `n` bytes
fails, whatever the chunk schedule: a short stream is an error, never a
silently shortened result. -/
theorem ReceiveExact_short : ∀ (sched : List Nat) (n : Nat) (stream : List Nat),
    stream.length < n → ReceiveExact sched stream n = none := by
  intro sched
  induction sched with
  | nil =>
      intro n stream h
      cases n with
      | zero => exact absurd h (by omega)
      | succ m => rfl
  | cons c sch ih =>
      intro n stream h
      cases n with
      | zero => exact absurd h (by omega)
      | succ m =>
          simp only [ReceiveExact]
          set k := min (min c (m + 1)) stream.length with hkdef
          by_cases hk : k = 0
          · rw [if_pos hk]
          · rw [if_neg hk]
            have hkle : k ≤ stream.length := by omega
            rw [ih (m + 1 - k) (stream.drop k) (by simp only [List.length_drop]; omega)]

/-- Frame encoding: 4-byte little-endian length header followed by the
payload (the uint32 framing of the spec's wire format). -/
def sendFrame (payload : List Nat) : List Nat := natToBytes 4 payload.length ++ payload

/-- Modelled from the spec: the fixed sane upper bound (10 MiB) that the
framed receive imposes on the declared payload length before allocating
or reading the payload. -/
def maxFrameLen : Nat := 10485760

/-- Modelled from the spec: the framed receive
(`NetworkHelper::ReceiveDataBinary` driven by `ReceiveExact`, bodies not
in the source tree) — read the 4-byte length header, validate the
declared length against `maxFrameLen` before touching the payload, then
read exactly that many payload bytes. -/
def receiveFrame (sched1 sched2 stream : List Nat) : Option (List Nat × List Nat) :=
  match ReceiveExact sched1 stream 4 with
  | none => none
  | some (hdr, rest) =>
    if maxFrameLen < bytesToNat hdr then none
    else
      match ReceiveExact sched2 rest (bytesToNat hdr) with
      | none => none
      | some (payload, rest2) => some (payload, rest2)

theorem bytesToNat_header (L : Nat) (h : L < 2 ^ 32) :
    bytesToNat (natToBytes 4 L) = L := by
  rw [bytesToNat_natToBytes]
  have : (256 : Nat) ^ 4 = 2 ^ 32 := by norm_num
  rw [this]
  exact Nat.mod_eq_of_lt h

theorem maxFrameLen_lt : maxFrameLen < 2 ^ 32 := by norm_num [maxFrameLen]

theorem set_replicate (n j a v : Nat) (hj : j < n) :
    (List.replicate n a).set j v = List.replicate j a ++ v :: List.replicate (n - 1 - j) a := by
  induction n generalizing j with
  | zero => omega
  | succ n ih =>
      cases j with
      | zero =>
          have h : n + 1 - 1 - 0 = n := by omega
          rw [h, List.replicate_succ, List.set_cons_zero]
          rfl
      | succ j =>
          have hj' : j < n := by omega
          have h : n + 1 - 1 - (j + 1) = n - 1 - j := by omega
          rw [h, List.replicate_succ, List.set_cons_succ, ih j hj', List.replicate_succ]
          rfl

/-- A padding block with any single byte xored by a nonzero bit mask no
longer passes the PKCS#7 check, whatever precedes it. -/
theorem pkcs7Unpad_append_tampered (X : List Nat) (j bit : Nat) (hj : j < 16)
    (hbit : bit < 8) :
    pkcs7Unpad (X ++ (List.replicate 16 16).set j (16 ^^^ 2 ^ bit)) = none := by
  have hvne : 16 ^^^ 2 ^ bit ≠ 16 :=
    (by decide : ∀ b, b < 8 → 16 ^^^ 2 ^ b ≠ 16) bit hbit
  have hvcases : 16 ^^^ 2 ^ bit = 0 ∨ 16 < 16 ^^^ 2 ^ bit :=
    (by decide : ∀ b, b < 8 → (16 ^^^ 2 ^ b = 0 ∨ 16 < 16 ^^^ 2 ^ b)) bit hbit
  set v := 16 ^^^ 2 ^ bit with hv
  rw [set_replicate 16 j 16 v hj]
  by_cases hj15 : j = 15
  · subst hj15
    have h0 : (16 : Nat) - 1 - 15 = 0 := by norm_num
    rw [h0]
    have hassoc : X ++ (List.replicate 15 16 ++ v :: List.replicate 0 16) =
        (X ++ List.replicate 15 16) ++ [v] := by simp
    rw [hassoc]
    have hgl : ((X ++ List.replicate 15 16) ++ [v]).getLastD 0 = v :=
      List.getLastD_concat ..
    rcases hvcases with hcase | hcase
    · rw [pkcs7Unpad, hgl, if_pos hcase]
    · rw [pkcs7Unpad, hgl, if_neg (by omega), if_pos hcase]
  · have h1 : (16 : Nat) - 1 - j = (14 - j) + 1 := by omega
    rw [h1, List.replicate_succ']
    have hgl : (X ++ (List.replicate j 16 ++ v ::
        (List.replicate (14 - j) 16 ++ [16]))).getLastD 0 = 16 := by
      have hassoc : X ++ (List.replicate j 16 ++ v ::
          (List.replicate (14 - j) 16 ++ [16])) =
          (X ++ List.replicate j 16 ++ v :: List.replicate (14 - j) 16) ++ [16] := by
        simp
      rw [hassoc]
      exact List.getLastD_concat ..
    have hlb16 : (List.replicate j 16 ++ v ::
        (List.replicate (14 - j) 16 ++ [16])).length = 16 := by
      simp
      omega
    have hlen : (X ++ (List.replicate j 16 ++ v ::
        (List.replicate (14 - j) 16 ++ [16]))).length = X.length + 16 := by
      rw [List.length_append, hlb16]
    have hdrop : (X ++ (List.replicate j 16 ++ v ::
        (List.replicate (14 - j) 16 ++ [16]))).drop
        ((X ++ (List.replicate j 16 ++ v ::
          (List.replicate (14 - j) 16 ++ [16]))).length - 16) =
        List.replicate j 16 ++ v :: (List.replicate (14 - j) 16 ++ [16]) := by
      rw [hlen]
      have h2 : X.length + 16 - 16 = X.length := by omega
      rw [h2]
      exact List.drop_left ..
    have hall : ¬ ((List.replicate j 16 ++ v ::
        (List.replicate (14 - j) 16 ++ [16])).all (· == (16 : Nat)) = true) := by
      intro hall
      have hvmem : v ∈ List.replicate j 16 ++ v ::
          (List.replicate (14 - j) 16 ++ [16]) := by simp
      have := List.all_eq_true.mp hall v hvmem
      simp at this
      exact hvne this
    rw [pkcs7Unpad, hgl, if_neg (by omega), if_neg (by omega),
      if_neg (by rw [hlen]; omega), hdrop, if_neg hall]

/-- Structure of the CBC ciphertext of a block-aligned message: the
final ciphertext block encrypts the xor of the full padding block with
the previous ciphertext block. -/
theorem aes_ct_final_block (encBlock : List Nat → List Nat → List Nat)
    (key iv msg : List Nat)
    (hlen : ∀ x, x.length = 16 → (encBlock key x).length = 16)
    (hiv : iv.length = 16) (hmod : msg.length % 16 = 0)
    (cs : List (List Nat)) (c cn : List Nat)
    (hsplit : toBlocks (AESEncrypt encBlock key iv msg) = cs ++ [c, cn]) :
    cn = encBlock key (xorB c (List.replicate 16 16)) := by
  have hctall : ∀ b ∈ cbcEnc (encBlock key) iv (toBlocks (pkcs7Pad msg)), b.length = 16 :=
    AESEncrypt_blocks_16 encBlock key iv msg hlen hiv
  have hct : toBlocks (AESEncrypt encBlock key iv msg) =
      cbcEnc (encBlock key) iv (toBlocks (pkcs7Pad msg)) := by
    rw [AESEncrypt]
    exact toBlocks_of_blocks _ hctall
  have hctb : cbcEnc (encBlock key) iv (toBlocks (pkcs7Pad msg)) = cs ++ [c, cn] := by
    rw [← hct, hsplit]
  have hpad : pkcs7Pad msg = msg ++ List.replicate 16 16 := by
    rw [pkcs7Pad, hmod]
  have hmblocks : ∀ b ∈ toBlocks msg, b.length = 16 := toBlocks_blocks_length msg hmod
  have hbs : toBlocks (pkcs7Pad msg) = toBlocks msg ++ [List.replicate 16 16] := by
    rw [hpad]
    have hfl : msg ++ List.replicate 16 16 =
        (toBlocks msg ++ [List.replicate 16 16]).flatten := by
      rw [List.flatten_append]
      simp [flatten_toBlocks]
    rw [hfl]
    refine toBlocks_of_blocks _ ?_
    intro b hb
    rcases List.mem_append.mp hb with h | h
    · exact hmblocks b h
    · simp at h
      subst h
      simp
  have hE : cbcEnc (encBlock key) iv (toBlocks (pkcs7Pad msg)) =
      cbcEnc (encBlock key) iv (toBlocks msg) ++
      [encBlock key (xorB ((cbcEnc (encBlock key) iv (toBlocks msg)).getLastD iv)
        (List.replicate 16 16))] := by
    rw [hbs, cbcEnc_append]
    rfl
  have heq : (cs ++ [c]) ++ [cn] =
      cbcEnc (encBlock key) iv (toBlocks msg) ++
      [encBlock key (xorB ((cbcEnc (encBlock key) iv (toBlocks msg)).getLastD iv)
        (List.replicate 16 16))] := by
    have hre : (cs ++ [c]) ++ [cn] = cs ++ [c, cn] := by simp
    rw [hre, ← hctb, hE]
  have hlens : (cs ++ [c]).length = (cbcEnc (encBlock key) iv (toBlocks msg)).length := by
    have h := congrArg List.length heq
    simp only [List.length_append, List.length_cons, List.length_nil] at h ⊢
    omega
  obtain ⟨hEeq, hcneq⟩ := List.append_inj heq hlens
  have h1 : cn = encBlock key
      (xorB ((cbcEnc (encBlock key) iv (toBlocks msg)).getLastD iv)
        (List.replicate 16 16)) := by
    simpa using hcneq
  rw [← hEeq, List.getLastD_concat] at h1
  exact h1

/-! ## Handshake state machines (spec 4.4; Client.h / Server.h flow) -/

/-- Observable handshake actions. -/
inductive HsEvent where
  | acceptClient
  | sendPubKey (pk : RSAPub)
  | recvPubKey (pk : RSAPub)
  | genSessionKey (k : List Nat)
  | sendWrappedKey (w : Nat)
  | recvWrappedKey (w : Nat)
  | unwrapSessionKey (w : Nat)
  | handshakeDone
  deriving DecidableEq, Repr

/-- Responder (Server) handshake states, per spec section 4.4. -/
inductive ServerHsState where
  | Listening
  | ClientAccepted
  | PublicKeySent
  | SessionKeyReceived
  | Ready
  deriving DecidableEq, Repr

/-- Initiator (Client) handshake states, per spec section 4.4. -/
inductive ClientHsState where
  | Connected
  | PeerPublicKeyReceived
  | SessionKeyGenerated
  | SessionKeySent
  | Ready
  deriving DecidableEq, Repr

/-- Modelled from the spec: the responder's handshake step function
(`Server::WaitForClient`, body not in the source tree): accept the
client, send the own public key as a frame, receive the wrapped session
key as a frame, unwrap it. -/
def serverStep (kp : RSAKeyPair) (w : Nat) :
    ServerHsState → Option (HsEvent × ServerHsState)
  | .Listening => some (.acceptClient, .ClientAccepted)
  | .ClientAccepted => some (.sendPubKey ⟨kp.n, kp.e⟩, .PublicKeySent)
  | .PublicKeySent => some (.recvWrappedKey w, .SessionKeyReceived)
  | .SessionKeyReceived => some (.unwrapSessionKey w, .Ready)
  | .Ready => none

/-- Modelled from the spec: the initiator's handshake step function
(`Client::ExchangeKeys` and `Client::SendAESKeyEncrypted`, bodies not in
the source tree): receive the peer public key as a frame, generate the
session key locally, wrap it under the peer key and send it as a frame. -/
def clientStep (pk : RSAPub) (k : List Nat) :
    ClientHsState → Option (HsEvent × ClientHsState)
  | .Connected => some (.recvPubKey pk, .PeerPublicKeyReceived)
  | .PeerPublicKeyReceived => some (.genSessionKey k, .SessionKeyGenerated)
  | .SessionKeyGenerated =>
      some (.sendWrappedKey (bytesToNat k ^ pk.e % pk.n), .SessionKeySent)
  | .SessionKeySent => some (.handshakeDone, .Ready)
  | .Ready => none

/-- Run a step function for at most `f` steps, collecting the events. -/
def runSteps {σ : Type} (step : σ → Option (HsEvent × σ)) : Nat → σ → List HsEvent
  | 0, _ => []
  | f + 1, s =>
    match step s with
    | none => []
    | some (e, s') => e :: runSteps step f s'

/-- Run a step function for at most `f` steps, returning the final state. -/
def runFinal {σ : Type} (step : σ → Option (HsEvent × σ)) : Nat → σ → σ
  | 0, s => s
  | f + 1, s =>
    match step s with
    | none => s
    | some (_, s') => runFinal step f s'

/-- The responder's full handshake trace. -/
def serverHandshakeTrace (kp : RSAKeyPair) (w : Nat) : List HsEvent :=
  runSteps (serverStep kp w) 4 .Listening

/-- The initiator's full handshake trace. -/
def clientHandshakeTrace (pk : RSAPub) (k : List Nat) : List HsEvent :=
  runSteps (clientStep pk k) 4 .Connected

def isGenEvent : HsEvent → Bool
  | .genSessionKey _ => true
  | _ => false

def isSendPubEvent : HsEvent → Bool
  | .sendPubKey _ => true
  | _ => false

def isRecvPubEvent : HsEvent → Bool
  | .recvPubKey _ => true
  | _ => false

def isSendWrappedEvent : HsEvent → Bool
  | .sendWrappedKey _ => true
  | _ => false

def isRecvWrappedEvent : HsEvent → Bool
  | .recvWrappedKey _ => true
  | _ => false

/-! ## Entry point (translated from src/E2EE.cpp, function `main`) -/

/-- Result of the argument dispatch in `main` (E2EE.cpp).  `usageClient`
prints "Uso: E2EE client <ip> <port>" and returns 1; `badMode` prints
"Modo no reconocido" and returns 1; `interactive` is the `argc < 2`
branch that prompts on stdin; `stoiFailure` models `std::stoi` throwing
on a non-numeric port argument. -/
inductive RunResult where
  | runServer (port : Int)
  | runClient (ip : String) (port : Int)
  | usageClient
  | badMode
  | interactive
  | stoiFailure
  deriving DecidableEq, Repr

/-- Model of `std::stoi`: skip leading spaces, parse an optional sign and
a leading run of decimal digits, ignore any trailing characters, and fail
(throw) when no digit is found. -/
def stoiModel (s : String) : Option Int :=
  let cs := s.data.dropWhile (fun c => c = ' ')
  let signed : Bool × List Char :=
    match cs with
    | '-' :: rest => (true, rest)
    | '+' :: rest => (false, rest)
    | rest => (false, rest)
  let digits := signed.2.takeWhile Char.isDigit
  if digits.isEmpty then none
  else
    let v : Nat := digits.foldl (fun acc c => acc * 10 + (c.toNat - 48)) 0
    some (if signed.1 then -(v : Int) else (v : Int))

/-- Translated from the source (`main` in E2EE.cpp): dispatch on
`argv[1..]`.  `server` with no port argument defaults to port 12345;
`client` requires both an ip and a port (`argc < 4` prints usage and
returns 1 before any `Client` object is constructed or connected). -/
def mainDispatch (args : List String) : RunResult :=
  match args with
  | [] => .interactive
  | mode :: rest =>
    if mode = "server" then
      match rest with
      | [] => .runServer 12345
      | p :: _ =>
        match stoiModel p with
        | some v => .runServer v
        | none => .stoiFailure
    else if mode = "client" then
      match rest with
      | ip :: p :: _ =>
        match stoiModel p with
        | some v => .runClient ip v
        | none => .stoiFailure
      | _ => .usageClient
    else .badMode

/-- Exit status of the process for a given dispatch result, as returned
by `main` (E2EE.cpp): the usage and unknown-mode branches return 1,
every completed branch returns 0. -/
def exitCode : RunResult → Int
  | .usageClient => 1
  | .badMode => 1
  | .stoiFailure => 1
  | _ => 0

/-- Whether the dispatch result leads to constructing a `Client` and
calling `Connect()` (a TCP connection attempt). -/
def attemptsConnection : RunResult → Bool
  | .runClient _ _ => true
  | _ => false

/-! ## Claim theorems -/

/-- C1: for every session key K and plaintext P, if encrypting P under K
returns an iv and a ciphertext, then decrypting that ciphertext under
the same K with that iv returns exactly P (the keyed block maps being
mutually inverse 16-byte permutations, as AES-256 is). -/
theorem aes_session_roundtrip (encBlock decBlock : List Nat → List Nat → List Nat)
    (key msg : List Nat) (ctr : Nat)
    (hlen : ∀ x, x.length = 16 → (encBlock key x).length = 16)
    (hinv : ∀ x, x.length = 16 → decBlock key (encBlock key x) = x) :
    AESDecrypt decBlock key (AESEncryptCall encBlock key msg ctr).1.1
      (AESEncryptCall encBlock key msg ctr).1.2 = some msg :=
  AESDecrypt_AESEncrypt encBlock decBlock key (randIV ctr) msg hlen hinv (randIV_length ctr)

/-- Witness for C1 at a concrete key, message and rng state. -/
theorem aes_session_roundtrip_witness :
    AESDecrypt xorCipher (List.replicate 32 7)
      (AESEncryptCall xorCipher (List.replicate 32 7) [1, 2, 3] 0).1.1
      (AESEncryptCall xorCipher (List.replicate 32 7) [1, 2, 3] 0).1.2 = some [1, 2, 3] :=
  aes_session_roundtrip xorCipher xorCipher (List.replicate 32 7) [1, 2, 3] 0
    (xorCipher_length _ (by simp)) (xorCipher_involutive _ (by simp))

/-- C2: wrapping the 32-byte session key under the peer's public RSA key
and unwrapping the result with the matching private key stores exactly
the original key bytes as the session key. -/
theorem rsa_wrap_unwrap_restores_key (p q e d : Nat) (key : List Nat)
    (client server : CryptoHelper)
    (hp : p.Prime) (hq : q.Prime) (hpq : p ≠ q)
    (hed : e * d ≡ 1 [MOD (p - 1) * (q - 1)])
    (hkey32 : key.length = 32) (hkeyb : ∀ b ∈ key, b < 256)
    (hkeyn : bytesToNat key < p * q)
    (hclient : client.peerPublicKey = some ⟨p * q, e⟩)
    (hckey : client.aesKey = key)
    (hserver : server.rsaKeyPair = some ⟨p * q, e, d⟩) :
    ∀ w, EncryptAESKeyWithPeer client = some w →
      DecryptAESKey server w = some { server with aesKey := key } := by
  intro w hw
  simp only [EncryptAESKeyWithPeer, hclient, hckey, Option.some.injEq] at hw
  simp only [DecryptAESKey, hserver, Option.some.injEq]
  have hkeyval : w ^ d % (p * q) = bytesToNat key := by
    rw [← hw]
    exact rsa_correct p q e d (bytesToNat key) hp hq hpq hed hkeyn
  rw [hkeyval]
  rw [show natToBytes 32 (bytesToNat key) = key from by
    rw [← hkey32]; exact natToBytes_bytesToNat key hkeyb]

/-- Witness for C2 with the keypair (n,e,d) = (33,3,7) over primes 3 and
11 and a concrete 32-byte session key. -/
theorem rsa_wrap_unwrap_restores_key_witness :
    DecryptAESKey ⟨some ⟨33, 3, 7⟩, none, []⟩ 26 =
      some ⟨some ⟨33, 3, 7⟩, none, 5 :: List.replicate 31 0⟩ :=
  rsa_wrap_unwrap_restores_key 3 11 3 7 (5 :: List.replicate 31 0)
    ⟨none, some ⟨33, 3⟩, 5 :: List.replicate 31 0⟩ ⟨some ⟨33, 3, 7⟩, none, []⟩
    (by norm_num) (by norm_num) (by decide) (by decide)
    (by decide) (by decide) (by decide) (by decide) (by decide) (by decide)
    26 (by decide)

/-- C3: a frame sent with the all-bytes send loop is received back
exactly, for every way the transport splits the bytes into positive
chunks on the receive side, with the rest of the stream untouched. -/
theorem frame_roundtrip_chunked (B extra sched1 sched2 : List Nat)
    (hB : B.length ≤ maxFrameLen)
    (h1pos : ∀ c ∈ sched1, 0 < c) (h1len : 4 ≤ sched1.length)
    (h2pos : ∀ c ∈ sched2, 0 < c) (h2len : B.length ≤ sched2.length) :
    receiveFrame sched1 sched2 (SendAll [] (sendFrame B) ++ extra) = some (B, extra) := by
  have hhdr : (natToBytes 4 B.length).length = 4 := natToBytes_length 4 B.length
  have hstream : SendAll [] (sendFrame B) ++ extra =
      natToBytes 4 B.length ++ (B ++ extra) := by
    simp [SendAll, sendFrame]
  rw [hstream]
  have h4 : ReceiveExact sched1 (natToBytes 4 B.length ++ (B ++ extra)) 4 =
      some (natToBytes 4 B.length, B ++ extra) := by
    rw [ReceiveExact_exact sched1 4 _ h1pos h1len (by simp [hhdr])]
    rw [List.take_left' hhdr, List.drop_left' hhdr]
  have hL : bytesToNat (natToBytes 4 B.length) = B.length :=
    bytesToNat_header B.length (by have := maxFrameLen_lt; omega)
  have hpay : ReceiveExact sched2 (B ++ extra) B.length = some (B, extra) := by
    rw [ReceiveExact_exact sched2 B.length _ h2pos h2len (by simp)]
    rw [List.take_left' rfl, List.drop_left' rfl]
  simp only [receiveFrame, h4, hL]
  rw [if_neg (by omega)]
  simp only [hpay]

/-- Witness for C3 with a 2-byte payload delivered one byte at a time. -/
theorem frame_roundtrip_chunked_witness :
    receiveFrame [1, 1, 1, 1] [1, 1] (SendAll [] (sendFrame [10, 20]) ++ [9]) =
      some ([10, 20], [9]) :=
  frame_roundtrip_chunked [10, 20] [9] [1, 1, 1, 1] [1, 1]
    (by decide) (by decide) (by decide) (by decide) (by decide)

/-- C4 counterexample: a single-bit flip in the first ciphertext block
of a three-block ciphertext (byte 0 is 6; xor it with bit 0) is NOT
detected: decryption succeeds (does not fail with the DecryptionError
result `none`) and returns corrupted plaintext, different from the
original message. -/
theorem aes_bitflip_accepted_counterexample :
    (AESEncrypt xorCipher (List.replicate 32 7) (List.replicate 16 0)
        (List.replicate 32 1)).getD 0 0 = 6 ∧
    AESDecrypt xorCipher (List.replicate 32 7) (List.replicate 16 0)
      ((AESEncrypt xorCipher (List.replicate 32 7) (List.replicate 16 0)
          (List.replicate 32 1)).set 0 (6 ^^^ 2 ^ 0)) ≠ none ∧
    AESDecrypt xorCipher (List.replicate 32 7) (List.replicate 16 0)
      ((AESEncrypt xorCipher (List.replicate 32 7) (List.replicate 16 0)
          (List.replicate 32 1)).set 0 (6 ^^^ 2 ^ 0)) ≠
      some (List.replicate 32 1) :=
  ⟨by decide, by decide, by decide⟩

/-- C4 (amended): a single-bit flip is guaranteed to be detected only
when it corrupts the recovered padding: for a block-aligned plaintext,
flipping any single bit of the second-to-last ciphertext block makes
decryption fail with the DecryptionError result, while a flip confined
to earlier blocks can decrypt successfully to corrupted plaintext (CBC
with a padding check but no MAC does not give full integrity). -/
theorem aes_bitflip_second_last_block_rejected
    (encBlock decBlock : List Nat → List Nat → List Nat) (key iv msg : List Nat)
    (hlen : ∀ x, x.length = 16 → (encBlock key x).length = 16)
    (hinv : ∀ x, x.length = 16 → decBlock key (encBlock key x) = x)
    (hiv : iv.length = 16) (hmod : msg.length % 16 = 0)
    (cs : List (List Nat)) (c cn : List Nat)
    (hsplit : toBlocks (AESEncrypt encBlock key iv msg) = cs ++ [c, cn])
    (j bit : Nat) (hj : j < 16) (hbit : bit < 8) :
    AESDecrypt decBlock key iv
      ((cs ++ [c.set j (c.getD j 0 ^^^ 2 ^ bit), cn]).flatten) = none := by
  have hctall : ∀ b ∈ cbcEnc (encBlock key) iv (toBlocks (pkcs7Pad msg)), b.length = 16 :=
    AESEncrypt_blocks_16 encBlock key iv msg hlen hiv
  have hct : toBlocks (AESEncrypt encBlock key iv msg) =
      cbcEnc (encBlock key) iv (toBlocks (pkcs7Pad msg)) := by
    rw [AESEncrypt]
    exact toBlocks_of_blocks _ hctall
  have hctb : cbcEnc (encBlock key) iv (toBlocks (pkcs7Pad msg)) = cs ++ [c, cn] := by
    rw [← hct, hsplit]
  have hcn := aes_ct_final_block encBlock key iv msg hlen hiv hmod cs c cn hsplit
  have hcs16 : ∀ b ∈ cs, b.length = 16 := fun b hb =>
    hctall b (by rw [hctb]; exact List.mem_append_left _ hb)
  have hc16 : c.length = 16 :=
    hctall c (by rw [hctb]; exact List.mem_append_right _ (by simp))
  have hcn16 : cn.length = 16 :=
    hctall cn (by rw [hctb]; exact List.mem_append_right _ (by simp))
  have hc'16 : (c.set j (c.getD j 0 ^^^ 2 ^ bit)).length = 16 := by
    rw [List.length_set]
    exact hc16
  have htall : ∀ b ∈ cs ++ [c.set j (c.getD j 0 ^^^ 2 ^ bit), cn], b.length = 16 := by
    intro b hb
    rcases List.mem_append.mp hb with h | h
    · exact hcs16 b h
    · simp only [List.mem_cons, List.not_mem_nil, or_false] at h
      rcases h with h | h
      · subst h; exact hc'16
      · subst h; exact hcn16
  have htlen : ((cs ++ [c.set j (c.getD j 0 ^^^ 2 ^ bit), cn]).flatten).length =
      16 * (cs.length + 2) := by
    rw [flatten_blocks_length _ htall]
    simp
  have hxc16 : (xorB c (List.replicate 16 16)).length = 16 := by
    rw [xorB_length, hc16]
    simp
  have hdcn : decBlock key cn = xorB c (List.replicate 16 16) := by
    rw [hcn]
    exact hinv _ hxc16
  rw [AESDecrypt, if_neg (by rw [htlen]; omega), if_neg (by rw [htlen]; omega)]
  rw [toBlocks_of_blocks _ htall]
  rw [cbcDec_append]
  have hdec2 : cbcDec (decBlock key) (cs.getLastD iv)
      [c.set j (c.getD j 0 ^^^ 2 ^ bit), cn] =
      [xorB (cs.getLastD iv) (decBlock key (c.set j (c.getD j 0 ^^^ 2 ^ bit))),
        xorB (c.set j (c.getD j 0 ^^^ 2 ^ bit)) (decBlock key cn)] := rfl
  rw [hdec2, hdcn]
  have hflip : xorB (c.set j (c.getD j 0 ^^^ 2 ^ bit)) (xorB c (List.replicate 16 16)) =
      (List.replicate 16 16).set j (16 ^^^ 2 ^ bit) := by
    rw [xorB_set_flip c (List.replicate 16 16) (by rw [hc16]; simp) j (2 ^ bit)]
    have hg : (List.replicate 16 (16 : Nat)).getD j 0 = 16 :=
      (by decide : ∀ i, i < 16 → (List.replicate 16 (16 : Nat)).getD i 0 = 16) j hj
    rw [hg]
  rw [hflip]
  rw [List.flatten_append]
  have hfl : ([xorB (cs.getLastD iv) (decBlock key (c.set j (c.getD j 0 ^^^ 2 ^ bit))),
      (List.replicate 16 16).set j (16 ^^^ 2 ^ bit)]).flatten =
      xorB (cs.getLastD iv) (decBlock key (c.set j (c.getD j 0 ^^^ 2 ^ bit))) ++
        (List.replicate 16 16).set j (16 ^^^ 2 ^ bit) := by
    simp
  rw [hfl, ← List.append_assoc]
  exact pkcs7Unpad_append_tampered _ j bit hj hbit

/-- Witness for the amended C4 at a concrete key, iv, 32-byte message
and the flip of bit 0 of byte 0 of the second-to-last ciphertext
block. -/
theorem aes_bitflip_second_last_block_rejected_witness :
    AESDecrypt xorCipher (List.replicate 32 7) (List.replicate 16 0)
      (([List.replicate 16 6] ++
        [(List.replicate 16 0).set 0 ((List.replicate 16 0).getD 0 0 ^^^ 2 ^ 0),
          List.replicate 16 23]).flatten) = none :=
  aes_bitflip_second_last_block_rejected xorCipher xorCipher (List.replicate 32 7)
    (List.replicate 16 0) (List.replicate 32 1)
    (xorCipher_length _ (by simp)) (xorCipher_involutive _ (by simp))
    (by decide) (by decide)
    [List.replicate 16 6] (List.replicate 16 0) (List.replicate 16 23)
    (by decide) 0 0 (by decide) (by decide)

/-- C5: in every handshake run, exactly the initiator generates the
session key (the responder's trace has no generation event and only ever
unwraps); the responder sends its public key before receiving the
wrapped session key, and the initiator receives the peer public key,
then generates the session key, then sends it wrapped; both reach
`Ready`. -/
theorem handshake_single_generator (kp : RSAKeyPair) (pk : RSAPub) (k : List Nat) (w : Nat) :
    (clientHandshakeTrace pk k).countP isGenEvent = 1 ∧
    (serverHandshakeTrace kp w).countP isGenEvent = 0 ∧
    (serverHandshakeTrace kp w).findIdx isSendPubEvent <
      (serverHandshakeTrace kp w).findIdx isRecvWrappedEvent ∧
    (clientHandshakeTrace pk k).findIdx isRecvPubEvent <
      (clientHandshakeTrace pk k).findIdx isGenEvent ∧
    (clientHandshakeTrace pk k).findIdx isGenEvent <
      (clientHandshakeTrace pk k).findIdx isSendWrappedEvent ∧
    runFinal (serverStep kp w) 4 .Listening = .Ready ∧
    runFinal (clientStep pk k) 4 .Connected = .Ready := by
  refine ⟨?_, ?_, ?_, ?_, ?_, rfl, rfl⟩ <;>
    simp [clientHandshakeTrace, serverHandshakeTrace, runSteps, clientStep, serverStep,
      isGenEvent, isSendPubEvent, isRecvPubEvent, isSendWrappedEvent, isRecvWrappedEvent,
      List.countP_cons, List.findIdx_cons]

/-- C6: importing a peer public-key text that is not well formed fails
with the catchable `KeyFormatError` result, and importing a well-formed
one succeeds — the import function never produces anything but these
two explicit outcomes. -/
theorem malformed_key_import_fails (s : String) :
    (isWellFormedKeyText s = false →
      LoadPeerPublicKey s = .error .KeyFormatError) ∧
    (isWellFormedKeyText s = true → ∃ pk, LoadPeerPublicKey s = .ok pk) := by
  unfold isWellFormedKeyText LoadPeerPublicKey
  cases hsp : splitOnSpace s.data with
  | nil => simp
  | cons a t =>
    cases t with
    | nil => simp
    | cons b t2 =>
      cases t2 with
      | nil => simp
      | cons c t3 =>
        cases t3 with
        | nil =>
            by_cases ht : a = "PUBKEY".data
            · cases hb : parseNatDigits b <;> cases hc : parseNatDigits c <;>
                simp [ht, hb, hc]
            · simp [ht]
        | cons e t4 => simp

/-- Witness for C6 on the malformed input string "garbage". -/
theorem malformed_key_import_fails_witness :
    LoadPeerPublicKey "garbage" = .error .KeyFormatError :=
  (malformed_key_import_fails "garbage").1 (by decide)

/-- C7: the framed receive reads the 4-byte length header and then
exactly the declared number of payload bytes; it fails when the declared
length exceeds the fixed bound `maxFrameLen` — without reading any
payload byte, whatever follows the header — and when the stream closes
before the header or mid-payload. -/
theorem receive_frame_guards :
    (∀ (L : Nat) (rest sched1 sched2 : List Nat),
      (∀ c ∈ sched1, 0 < c) → 4 ≤ sched1.length → L < 2 ^ 32 → maxFrameLen < L →
      receiveFrame sched1 sched2 (natToBytes 4 L ++ rest) = none) ∧
    (∀ (sched1 sched2 stream : List Nat), stream.length < 4 →
      receiveFrame sched1 sched2 stream = none) ∧
    (∀ (L : Nat) (rest sched1 sched2 : List Nat),
      (∀ c ∈ sched1, 0 < c) → 4 ≤ sched1.length → L ≤ maxFrameLen → rest.length < L →
      receiveFrame sched1 sched2 (natToBytes 4 L ++ rest) = none) ∧
    (∀ (L : Nat) (rest sched1 sched2 : List Nat),
      (∀ c ∈ sched1, 0 < c) → 4 ≤ sched1.length → L ≤ maxFrameLen →
      (∀ c ∈ sched2, 0 < c) → L ≤ sched2.length → L ≤ rest.length →
      receiveFrame sched1 sched2 (natToBytes 4 L ++ rest) =
        some (rest.take L, rest.drop L)) := by
  have hdr4 : ∀ L : Nat, (natToBytes 4 L).length = 4 := fun L => natToBytes_length 4 L
  have hsplit : ∀ (L : Nat) (rest sched1 : List Nat), (∀ c ∈ sched1, 0 < c) →
      4 ≤ sched1.length →
      ReceiveExact sched1 (natToBytes 4 L ++ rest) 4 = some (natToBytes 4 L, rest) := by
    intro L rest sched1 hpos hlen
    rw [ReceiveExact_exact sched1 4 _ hpos hlen (by simp [hdr4 L])]
    rw [List.take_left' (hdr4 L), List.drop_left' (hdr4 L)]
  refine ⟨?_, ?_, ?_, ?_⟩
  · intro L rest sched1 sched2 hpos hlen hL hbig
    simp only [receiveFrame, hsplit L rest sched1 hpos hlen, bytesToNat_header L hL]
    rw [if_pos hbig]
  · intro sched1 sched2 stream hshort
    simp only [receiveFrame, ReceiveExact_short sched1 4 stream hshort]
  · intro L rest sched1 sched2 hpos hlen hL hshort
    have hL32 : L < 2 ^ 32 := by have := maxFrameLen_lt; omega
    simp only [receiveFrame, hsplit L rest sched1 hpos hlen, bytesToNat_header L hL32]
    rw [if_neg (by omega)]
    simp only [ReceiveExact_short sched2 L rest hshort]
  · intro L rest sched1 sched2 hpos hlen hL h2pos h2len hrest
    have hL32 : L < 2 ^ 32 := by have := maxFrameLen_lt; omega
    simp only [receiveFrame, hsplit L rest sched1 hpos hlen, bytesToNat_header L hL32]
    rw [if_neg (by omega)]
    simp only [ReceiveExact_exact sched2 L rest h2pos h2len hrest]

/-- Witness for C7: an oversized declared length (10 MiB + 1) is
rejected with no payload present, and a well-formed 2-byte frame is read
exactly. -/
theorem receive_frame_guards_witness :
    receiveFrame [1, 1, 1, 1] [] (natToBytes 4 10485761 ++ []) = none ∧
    receiveFrame [1, 1, 1, 1] [1, 1] (natToBytes 4 2 ++ [10, 20, 9]) =
      some ([10, 20, 9].take 2, [10, 20, 9].drop 2) :=
  ⟨receive_frame_guards.1 10485761 [] [1, 1, 1, 1] [] (by decide) (by decide)
      (by decide) (by decide),
    receive_frame_guards.2.2.2 2 [10, 20, 9] [1, 1, 1, 1] [1, 1] (by decide) (by decide)
      (by decide) (by decide) (by decide) (by decide)⟩

/-- C8: every encryption call draws a fresh 16-byte iv from the RNG and
returns it alongside the ciphertext, ivs of distinct calls are distinct,
and the ciphertext length is always a multiple of the 16-byte block
size. -/
theorem encrypt_fresh_iv_block_aligned
    (encBlock : List Nat → List Nat → List Nat) (key msg : List Nat) (ctr : Nat)
    (hlen : ∀ x, x.length = 16 → (encBlock key x).length = 16) :
    ((AESEncryptCall encBlock key msg ctr).1.1).length = 16 ∧
    (AESEncryptCall encBlock key msg ctr).2 = ctr + 1 ∧
    ((AESEncryptCall encBlock key msg ctr).1.2).length % 16 = 0 ∧
    (∀ ctr2, ctr < 2 ^ 128 → ctr2 < 2 ^ 128 → ctr ≠ ctr2 →
      (AESEncryptCall encBlock key msg ctr).1.1 ≠
        (AESEncryptCall encBlock key msg ctr2).1.1) := by
  refine ⟨randIV_length ctr, rfl, ?_, ?_⟩
  · show (AESEncrypt encBlock key (randIV ctr) msg).length % 16 = 0
    rw [AESEncrypt_length encBlock key (randIV ctr) msg hlen (randIV_length ctr)]
    omega
  · intro ctr2 h1 h2 hne
    exact randIV_inj ctr ctr2 h1 h2 hne

/-- Witness for C8 at a concrete key, message and two rng states. -/
theorem encrypt_fresh_iv_block_aligned_witness :
    ((AESEncryptCall xorCipher (List.replicate 32 7) [1, 2, 3] 0).1.1).length = 16 ∧
    (AESEncryptCall xorCipher (List.replicate 32 7) [1, 2, 3] 0).2 = 0 + 1 ∧
    ((AESEncryptCall xorCipher (List.replicate 32 7) [1, 2, 3] 0).1.2).length % 16 = 0 ∧
    (AESEncryptCall xorCipher (List.replicate 32 7) [1, 2, 3] 0).1.1 ≠
      (AESEncryptCall xorCipher (List.replicate 32 7) [1, 2, 3] 1).1.1 := by
  have h := encrypt_fresh_iv_block_aligned xorCipher (List.replicate 32 7) [1, 2, 3] 0
    (xorCipher_length _ (by simp))
  exact ⟨h.1, h.2.1, h.2.2.1, h.2.2.2 1 (by norm_num) (by norm_num) (by decide)⟩

/-- C9: tearing down the crypto state at session end zeroes the 32-byte
session-key buffer and discards both RSA keys: no byte of the session
key survives in the object's state. -/
theorem teardown_zeroes_session_key (st : CryptoHelper) :
    (teardownCryptoHelper st).aesKey = List.replicate 32 0 ∧
    (teardownCryptoHelper st).aesKey.all (· == 0) = true ∧
    (teardownCryptoHelper st).aesKey.length = 32 ∧
    (teardownCryptoHelper st).rsaKeyPair = none ∧
    (teardownCryptoHelper st).peerPublicKey = none :=
  ⟨rfl, rfl, rfl, rfl, rfl⟩

/-- C10: invoking the program as `server` with no port argument starts
the server on default port 12345; invoking it as `client` with fewer
than four `argv` entries yields the usage branch, which exits with
status 1 and never attempts a connection. -/
theorem main_dispatch_defaults :
    mainDispatch ["server"] = .runServer 12345 ∧
    mainDispatch ["client"] = .usageClient ∧
    (∀ ip : String, mainDispatch ["client", ip] = .usageClient) ∧
    exitCode .usageClient = 1 ∧
    attemptsConnection .usageClient = false := by
  refine ⟨rfl, rfl, fun ip => ?_, rfl, rfl⟩
  simp [mainDispatch]
